import Mathlib

set_option linter.unusedSectionVars false

/-!
# Verification of `TreeMap.h` (binary-tree repository)

Shallow embedding of the C++ class `TreeMap<K, V>` — a binary search tree
map with `add`, `at`, `remove`, `size` and a lazy in-order input iterator —
together with proofs about the embedded operations.

Modelling conventions:
* A `Node*` pointer structure is embedded as the inductive `Tree K V`;
  the null pointer is `Tree.leaf`, a heap node is `Tree.node key val left right`.
* `K` is any `LinearOrder` (the C++ code requires `<`, `>`, `==`; the
  `else` branch of each three-way comparison means "equal", which is what a
  linear order provides).
* Functions that throw `std::out_of_range` are embedded with `Except Unit`;
  `.error ()` is the thrown exception.  Since the embedding is pure, an
  operation that returns `.error` has produced no new state, which mirrors
  the C++ exception unwinding (assignments such as `current->right = ...`
  and `root_ = ...` never execute when the callee throws).
* `new` is modelled as always succeeding (the `std::bad_alloc` branch of
  `add` is the one piece of behaviour outside the model); accordingly the
  `unsigned int size_` counter is modelled as `Nat` (its 2^32 wraparound
  could only be reached after 2^32 successful allocations).
* The iterator's `std::stack<TreeMapNode*>` is embedded as a
  `List (TNode K V)` whose head is the stack top.  The C++ code only ever
  pushes non-null pointers, so stack entries are records of a node's
  fields rather than possibly-null trees.  Node identity (pointer
  equality, used by `std::stack::operator==`) is modelled as structural
  equality of the node's fields and subtrees; inside a single search tree
  with pairwise-distinct keys the two notions coincide.
-/

namespace BinaryTreeRepo

/-- A `TreeMapNode*` pointer: null (`leaf`) or a node with a payload and
two child pointers. -/
inductive Tree (K V : Type) where
  | leaf : Tree K V
  | node : K → V → Tree K V → Tree K V → Tree K V
deriving DecidableEq, Repr

namespace Tree

variable {K V : Type} [LinearOrder K]

/-- Number of nodes reachable from this root. -/
def count : Tree K V → Nat
  | leaf => 0
  | node _ _ l r => 1 + l.count + r.count

/-- In-order traversal of the payloads. -/
def inorder : Tree K V → List (K × V)
  | leaf => []
  | node k v l r => l.inorder ++ (k, v) :: r.inorder

/-- The keys of the tree, in in-order sequence. -/
def keys (t : Tree K V) : List K := t.inorder.map Prod.fst

/-- `p` holds for every key in the tree. -/
def allKeys (p : K → Bool) : Tree K V → Bool
  | leaf => true
  | node k _ l r => p k && l.allKeys p && r.allKeys p

/-- The binary-search-tree ordering invariant: at every node, all keys of
the left subtree are strictly below the node's key and all keys of the
right subtree strictly above it. -/
def isBST : Tree K V → Bool
  | leaf => true
  | node k _ l r =>
      l.allKeys (fun x => x < k) && r.allKeys (fun x => x > k)
        && l.isBST && r.isBST

/-- `TreeMap::addHelper`.  `current` is the subtree being added to; the
already-built node `newElement` is passed as its four fields
`nk, nv, nl, nr` (in `add` the children are null, in `removeHelper`'s
reuse they are the right subtree's children).  Returns the new root and
the `*success` out-parameter. -/
def addHelper (current : Tree K V) (nk : K) (nv : V) (nl nr : Tree K V) :
    Tree K V × Bool :=
  match current with
  | leaf => (node nk nv nl nr, true)
  | node k v l r =>
    if k < nk then
      let res := addHelper r nk nv nl nr
      (node k v l res.1, res.2)
    else if k > nk then
      let res := addHelper l nk nv nl nr
      (node k v res.1 r, res.2)
    else
      (node k v l r, false)

/-- `TreeMap::atHelper`: recursive lookup; throws `std::out_of_range`
(modelled `.error ()`) when the key is absent. -/
def atHelper : Tree K V → K → Except Unit V
  | leaf, _ => .error ()
  | node k v l r, key =>
    if k < key then r.atHelper key
    else if k > key then l.atHelper key
    else .ok v

/-- `TreeMap::removeHelper`: recursive removal returning the new subtree
root and the `*retVal` out-parameter; throws (modelled `.error ()`) when
the key is absent.  On a match, the right subtree (if non-null) is merged
into the left subtree by `addHelper`, else the left subtree replaces the
node. -/
def removeHelper : Tree K V → K → Except Unit (Tree K V × V)
  | leaf, _ => .error ()
  | node k v l r, key =>
    if k < key then
      match r.removeHelper key with
      | .error e => .error e
      | .ok res => .ok (node k v l res.1, res.2)
    else if k > key then
      match l.removeHelper key with
      | .error e => .error e
      | .ok res => .ok (node k v res.1 r, res.2)
    else
      let remainingSubtree :=
        match r with
        | leaf => l
        | node rk rv rl rr => (addHelper l rk rv rl rr).1
      .ok (remainingSubtree, v)

end Tree

/-- The `TreeMap` object: its `size_` counter and `root_` pointer. -/
structure TreeMap (K V : Type) where
  size : Nat
  root : Tree K V
deriving DecidableEq, Repr

namespace TreeMap

variable {K V : Type} [LinearOrder K]

/-- The `TreeMap()` constructor: empty map. -/
def empty : TreeMap K V := ⟨0, .leaf⟩

/-- `TreeMap::add`: allocate the new node, run `addHelper` on the root,
and increment `size_` only on success. -/
def add (m : TreeMap K V) (key : K) (value : V) : TreeMap K V × Bool :=
  let res := Tree.addHelper m.root key value .leaf .leaf
  if res.2 then (⟨m.size + 1, res.1⟩, true) else (⟨m.size, res.1⟩, false)

/-- `TreeMap::at` (named `at'` because `at` is a reserved word in Lean). -/
def at' (m : TreeMap K V) (key : K) : Except Unit V :=
  m.root.atHelper key

/-- `TreeMap::remove`: run `removeHelper` on the root and decrement
`size_`; when the helper throws, neither `root_` nor `size_` is written. -/
def remove (m : TreeMap K V) (key : K) : Except Unit (TreeMap K V × V) :=
  match m.root.removeHelper key with
  | .error e => .error e
  | .ok res => .ok (⟨m.size - 1, res.1⟩, res.2)

/-- The representation invariant of a `TreeMap` object: the cached size
equals the number of reachable nodes and the tree satisfies the BST
ordering. -/
def Inv (m : TreeMap K V) : Prop :=
  m.root.isBST = true ∧ m.size = m.root.count

instance (m : TreeMap K V) : Decidable m.Inv := by
  unfold Inv; infer_instance

/-- Calling `add` once for each pair of a list (the round-trip scenario of
the spec: N keys inserted in any order). -/
def insertAll (m : TreeMap K V) : List (K × V) → TreeMap K V
  | [] => m
  | p :: rest => insertAll (m.add p.1 p.2).1 rest

end TreeMap

/-- A small concrete well-formed map (keys 1, 2, 5) used to instantiate
the theorems at explicit inputs. -/
def exMap : TreeMap Int Int :=
  ⟨3, .node 2 20 (.node 1 10 .leaf .leaf) (.node 5 50 .leaf .leaf)⟩

/-- One entry of the iterator's working stack: the fields of the
(non-null) node the stored pointer points at. -/
structure TNode (K V : Type) where
  key : K
  val : V
  left : Tree K V
  right : Tree K V
deriving DecidableEq, Repr

namespace Iter

variable {K V : Type}

/-- The `while (root != nullptr)` loop of `TreeIterator(TreeMapNode* root)`
and of `operator++`: push the nodes along the left spine of `t` onto the
stack `st` (list head = stack top). -/
def pushLefts : Tree K V → List (TNode K V) → List (TNode K V)
  | .leaf, st => st
  | .node k v l r, st => pushLefts l (⟨k, v, l, r⟩ :: st)

/-- `TreeMap::begin`: an iterator positioned at the leftmost node. -/
def iterBegin (m : TreeMap K V) : List (TNode K V) :=
  pushLefts m.root []

/-- `TreeMap::end` / the `TreeIterator()` constructor: empty stack. -/
def iterEnd : List (TNode K V) := []

/-- `TreeIterator::operator++`: throws when the stack is empty; otherwise
pops the top node and pushes the left spine of its right child. -/
def incIter : List (TNode K V) → Except Unit (List (TNode K V))
  | [] => .error ()
  | n :: rest => .ok (pushLefts n.right rest)

/-- `TreeIterator::operator*`: throws when the stack is empty; otherwise
returns the payload of the top node. -/
def derefIter : List (TNode K V) → Except Unit (K × V)
  | [] => .error ()
  | n :: _ => .ok (n.key, n.val)

/-- `TreeIterator::operator==`: `std::stack` equality, i.e. the two pending
stacks are element-for-element identical. -/
def iterEq [DecidableEq K] [DecidableEq V] (s1 s2 : List (TNode K V)) :
    Bool := decide (s1 = s2)

/-- `operator++` applied `n` times. -/
def advanceN : Nat → List (TNode K V) → Except Unit (List (TNode K V))
  | 0, st => .ok st
  | n + 1, st =>
    match incIter st with
    | .error e => .error e
    | .ok st' => advanceN n st'

/-- Termination measure for draining the stack: popping one node and
pushing the left spine of its right child strictly decreases it. -/
def stackCount (st : List (TNode K V)) : Nat :=
  (st.map (fun n => 1 + n.right.count)).sum

theorem stackCount_pushLefts (t : Tree K V) (st : List (TNode K V)) :
    stackCount (pushLefts t st) = t.count + stackCount st := by
  induction t generalizing st with
  | leaf => simp [pushLefts, Tree.count]
  | node k v l r ihl ihr =>
    show stackCount (pushLefts l (⟨k, v, l, r⟩ :: st)) = _
    rw [ihl]
    simp [stackCount, Tree.count]
    omega

/-- The whole sequence an iterator with stack `st` will produce: repeated
dereference-then-increment until the stack empties. -/
def drain (st : List (TNode K V)) : List (K × V) :=
  match st with
  | [] => []
  | n :: rest => (n.key, n.val) :: drain (pushLefts n.right rest)
termination_by stackCount st
decreasing_by
  rw [stackCount_pushLefts]
  simp [stackCount]

end Iter

/-! ## Lemmas about the tree-level operations -/

namespace Tree

variable {K V : Type} [LinearOrder K]

theorem keys_node (k : K) (v : V) (l r : Tree K V) :
    (node k v l r).keys = l.keys ++ k :: r.keys := by
  simp [keys, inorder]

theorem keys_leaf : (leaf : Tree K V).keys = [] := rfl

theorem count_eq_length_inorder (t : Tree K V) :
    t.count = t.inorder.length := by
  induction t with
  | leaf => rfl
  | node k v l r ihl ihr => simp [count, inorder, ihl, ihr]; omega

theorem allKeys_iff {p : K → Bool} {t : Tree K V} :
    t.allKeys p = true ↔ ∀ x ∈ t.keys, p x = true := by
  induction t with
  | leaf => simp [allKeys, keys_leaf]
  | node k v l r ihl ihr =>
    simp only [allKeys, Bool.and_eq_true, ihl, ihr, keys_node, List.mem_append,
      List.mem_cons]
    constructor
    · rintro ⟨⟨hk, hl⟩, hr⟩ x (hx | rfl | hx)
      · exact hl x hx
      · exact hk
      · exact hr x hx
    · intro h
      exact ⟨⟨h k (Or.inr (Or.inl rfl)), fun x hx => h x (Or.inl hx)⟩,
        fun x hx => h x (Or.inr (Or.inr hx))⟩

theorem isBST_node {k : K} {v : V} {l r : Tree K V} :
    (node k v l r).isBST = true ↔
      (∀ x ∈ l.keys, x < k) ∧ (∀ x ∈ r.keys, k < x)
        ∧ l.isBST = true ∧ r.isBST = true := by
  simp [isBST, Bool.and_eq_true, allKeys_iff, and_assoc, gt_iff_lt]

theorem pairwise_keys_of_isBST {t : Tree K V} (h : t.isBST = true) :
    t.keys.Pairwise (· < ·) := by
  induction t with
  | leaf => simp [keys_leaf]
  | node k v l r ihl ihr =>
    rw [isBST_node] at h
    obtain ⟨hl, hr, bl, br⟩ := h
    rw [keys_node]
    refine List.pairwise_append.2 ⟨ihl bl, ?_, ?_⟩
    · exact List.pairwise_cons.2 ⟨fun y hy => hr y hy, ihr br⟩
    · intro x hx y hy
      rcases List.mem_cons.1 hy with rfl | hy
      · exact hl x hx
      · exact lt_trans (hl x hx) (hr y hy)

theorem nodup_keys_of_isBST {t : Tree K V} (h : t.isBST = true) :
    t.keys.Nodup :=
  (pairwise_keys_of_isBST h).imp ne_of_lt

/-- `atHelper` on an absent key always throws (no BST assumption needed:
the search path only meets keys of the tree). -/
theorem atHelper_not_mem {t : Tree K V} {key : K} (h : key ∉ t.keys) :
    t.atHelper key = .error () := by
  induction t with
  | leaf => rfl
  | node k v l r ihl ihr =>
    simp only [keys_node, List.mem_append, List.mem_cons] at h
    push_neg at h
    obtain ⟨hl, hk, hr⟩ := h
    have hk' : k ≠ key := fun e => hk e.symm
    rcases lt_or_gt_of_ne hk' with hlt | hgt
    · simp [atHelper, hlt, ihr hr]
    · simp [atHelper, not_lt_of_gt hgt, hgt, ihl hl]

/-- A successful `atHelper` means the key is in the tree. -/
theorem mem_of_atHelper_ok {t : Tree K V} {key : K} {v : V}
    (h : t.atHelper key = .ok v) : key ∈ t.keys := by
  induction t with
  | leaf => simp [atHelper] at h
  | node k v' l r ihl ihr =>
    simp only [keys_node, List.mem_append, List.mem_cons]
    by_cases h1 : k < key
    · simp only [atHelper, if_pos h1] at h
      exact Or.inr (Or.inr (ihr h))
    · by_cases h2 : k > key
      · simp only [atHelper, if_neg h1, if_pos h2] at h
        exact Or.inl (ihl h)
      · exact Or.inr (Or.inl (le_antisymm (not_lt.1 h2) (not_lt.1 h1)).symm)

/-- On a BST, `atHelper` finds every present key. -/
theorem atHelper_ok_of_mem {t : Tree K V} {key : K}
    (hb : t.isBST = true) (h : key ∈ t.keys) :
    ∃ v, t.atHelper key = .ok v := by
  induction t with
  | leaf => simp [keys_leaf] at h
  | node k v l r ihl ihr =>
    rw [isBST_node] at hb
    obtain ⟨hlk, hrk, bl, br⟩ := hb
    rw [keys_node] at h
    rcases List.mem_append.1 h with hl | hkr
    · have : k > key := hlk key hl
      obtain ⟨w, hw⟩ := ihl bl hl
      exact ⟨w, by simp [atHelper, not_lt_of_gt this, this, hw]⟩
    · rcases List.mem_cons.1 hkr with rfl | hr
      · exact ⟨v, by simp [atHelper]⟩
      · have : k < key := hrk key hr
        obtain ⟨w, hw⟩ := ihr br hr
        exact ⟨w, by simp [atHelper, this, hw]⟩

/-- `addHelper` on a key already present in a BST leaves the tree exactly
as it was and reports failure. -/
theorem addHelper_collision {t : Tree K V} {nk : K} (nv : V) (nl nr : Tree K V)
    (hb : t.isBST = true) (h : nk ∈ t.keys) :
    addHelper t nk nv nl nr = (t, false) := by
  induction t with
  | leaf => simp [keys_leaf] at h
  | node k v l r ihl ihr =>
    rw [isBST_node] at hb
    obtain ⟨hlk, hrk, bl, br⟩ := hb
    rw [keys_node] at h
    rcases List.mem_append.1 h with hl | hkr
    · have hgt : k > nk := hlk nk hl
      simp [addHelper, not_lt_of_gt hgt, hgt, ihl bl hl]
    · rcases List.mem_cons.1 hkr with rfl | hr
      · simp [addHelper]
      · have hlt : k < nk := hrk nk hr
        simp [addHelper, hlt, ihr br hr]

/-- `addHelper` on a fresh key sets the `*success` out-parameter. -/
theorem addHelper_fresh_success {t : Tree K V} {nk : K} (nv : V)
    (nl nr : Tree K V) (h : nk ∉ t.keys) :
    (addHelper t nk nv nl nr).2 = true := by
  induction t with
  | leaf => rfl
  | node k v l r ihl ihr =>
    simp only [keys_node, List.mem_append, List.mem_cons] at h
    push_neg at h
    obtain ⟨hl, hk, hr⟩ := h
    have hk' : k ≠ nk := fun e => hk e.symm
    rcases lt_or_gt_of_ne hk' with hlt | hgt
    · simp [addHelper, hlt, ihr hr]
    · simp [addHelper, not_lt_of_gt hgt, hgt, ihl hl]

/-- `addHelper` on a fresh key grows the node count by the count of the
inserted node. -/
theorem addHelper_fresh_count {t : Tree K V} {nk : K} (nv : V)
    (nl nr : Tree K V) (h : nk ∉ t.keys) :
    (addHelper t nk nv nl nr).1.count
      = t.count + (node nk nv nl nr).count := by
  induction t with
  | leaf => simp [addHelper, count]
  | node k v l r ihl ihr =>
    simp only [keys_node, List.mem_append, List.mem_cons] at h
    push_neg at h
    obtain ⟨hl, hk, hr⟩ := h
    have hk' : k ≠ nk := fun e => hk e.symm
    rcases lt_or_gt_of_ne hk' with hlt | hgt
    · simp only [addHelper, if_pos hlt, count, ihr hr]
      omega
    · simp only [addHelper, if_neg (not_lt_of_gt hgt), if_pos hgt, count,
        ihl hl]
      omega

set_option maxHeartbeats 1000000 in
/-- Key membership after a fresh-key `addHelper`. -/
theorem addHelper_fresh_mem_keys {t : Tree K V} {nk : K} (nv : V)
    (nl nr : Tree K V) (h : nk ∉ t.keys) (x : K) :
    x ∈ (addHelper t nk nv nl nr).1.keys ↔
      x ∈ (node nk nv nl nr).keys ∨ x ∈ t.keys := by
  induction t with
  | leaf => simp [addHelper, keys_leaf]
  | node k v l r ihl ihr =>
    simp only [keys_node, List.mem_append, List.mem_cons] at h
    push_neg at h
    obtain ⟨hl, hk, hr⟩ := h
    have hk' : k ≠ nk := fun e => hk e.symm
    rcases lt_or_gt_of_ne hk' with hlt | hgt
    · simp only [addHelper, if_pos hlt, keys_node, List.mem_append,
        List.mem_cons, ihr hr]
      tauto
    · simp only [addHelper, if_neg (not_lt_of_gt hgt), if_pos hgt, keys_node,
        List.mem_append, List.mem_cons, ihl hl]
      tauto

/-- After inserting a fresh key, looking that key up finds the inserted
value. -/
theorem atHelper_addHelper_self {t : Tree K V} {nk : K} (nv : V)
    (nl nr : Tree K V) (h : nk ∉ t.keys) :
    (addHelper t nk nv nl nr).1.atHelper nk = .ok nv := by
  induction t with
  | leaf => simp [addHelper, atHelper]
  | node k v l r ihl ihr =>
    simp only [keys_node, List.mem_append, List.mem_cons] at h
    push_neg at h
    obtain ⟨hl, hk, hr⟩ := h
    have hk' : k ≠ nk := fun e => hk e.symm
    rcases lt_or_gt_of_ne hk' with hlt | hgt
    · simp [addHelper, hlt, atHelper, ihr hr]
    · simp [addHelper, not_lt_of_gt hgt, hgt, atHelper, ihl hl]

/-- Inserting a node one-sidedly above every key of `t` (the shape of the
`removeHelper` merge) preserves the BST invariant. -/
theorem addHelper_singleton_isBST {t : Tree K V} {nk : K} (nv : V)
    (hb : t.isBST = true) (h : nk ∉ t.keys) :
    (addHelper t nk nv leaf leaf).1.isBST = true := by
  induction t with
  | leaf => simp [addHelper, isBST, allKeys]
  | node k v l r ihl ihr =>
    rw [isBST_node] at hb
    obtain ⟨hlk, hrk, bl, br⟩ := hb
    simp only [keys_node, List.mem_append, List.mem_cons] at h
    push_neg at h
    obtain ⟨hl, hk, hr⟩ := h
    have hk' : k ≠ nk := fun e => hk e.symm
    rcases lt_or_gt_of_ne hk' with hlt | hgt
    · simp only [addHelper, if_pos hlt]
      rw [isBST_node]
      refine ⟨hlk, ?_, bl, ihr br hr⟩
      intro x hx
      rw [addHelper_fresh_mem_keys nv leaf leaf hr x] at hx
      rcases hx with hx | hx
      · simp only [keys_node, keys_leaf, List.nil_append, List.mem_cons,
          List.not_mem_nil, or_false] at hx
        exact hx ▸ hlt
      · exact hrk x hx
    · simp only [addHelper, if_neg (not_lt_of_gt hgt), if_pos hgt]
      rw [isBST_node]
      refine ⟨?_, hrk, ihl bl hl, br⟩
      intro x hx
      rw [addHelper_fresh_mem_keys nv leaf leaf hl x] at hx
      rcases hx with hx | hx
      · simp only [keys_node, keys_leaf, List.nil_append, List.mem_cons,
          List.not_mem_nil, or_false] at hx
        exact hx ▸ hgt
      · exact hlk x hx

/-- When every key of `t` is below the inserted node's key, `addHelper`
attaches the whole node at the rightmost position: the in-order traversal
is the concatenation. -/
theorem addHelper_rightmost_inorder {t : Tree K V} {nk : K} (nv : V)
    (nl nr : Tree K V) (h : ∀ x ∈ t.keys, x < nk) :
    (addHelper t nk nv nl nr).1.inorder
      = t.inorder ++ (node nk nv nl nr).inorder := by
  induction t with
  | leaf => simp [addHelper, inorder]
  | node k v l r ihl ihr =>
    have hlt : k < nk := h k (by simp [keys_node])
    have hr : ∀ x ∈ r.keys, x < nk := by
      intro x hx
      exact h x (by simp [keys_node, hx])
    simp only [addHelper, if_pos hlt, inorder, ihr hr]
    simp

theorem addHelper_rightmost_keys {t : Tree K V} {nk : K} (nv : V)
    (nl nr : Tree K V) (h : ∀ x ∈ t.keys, x < nk) :
    (addHelper t nk nv nl nr).1.keys
      = t.keys ++ (node nk nv nl nr).keys := by
  simp [keys, addHelper_rightmost_inorder nv nl nr h]

/-- The `removeHelper` merge shape preserves the BST invariant: inserting
a well-formed node all of whose keys lie above every key of `t`. -/
theorem addHelper_rightmost_isBST {t : Tree K V} {nk : K} {nv : V}
    {nl nr : Tree K V} (hb : t.isBST = true)
    (hbn : (node nk nv nl nr).isBST = true)
    (hsep : ∀ x ∈ t.keys, ∀ y ∈ (node nk nv nl nr).keys, x < y) :
    (addHelper t nk nv nl nr).1.isBST = true := by
  induction t with
  | leaf => simpa [addHelper] using hbn
  | node k v l r ihl ihr =>
    rw [isBST_node] at hb
    obtain ⟨hlk, hrk, bl, br⟩ := hb
    have hkmem : k ∈ (node k v l r).keys := by simp [keys_node]
    have hnkmem : nk ∈ (node nk nv nl nr).keys := by simp [keys_node]
    have hlt : k < nk := hsep k hkmem nk hnkmem
    have hrsep : ∀ x ∈ r.keys, ∀ y ∈ (node nk nv nl nr).keys, x < y := by
      intro x hx y hy
      exact hsep x (by simp [keys_node, hx]) y hy
    have hrbound : ∀ x ∈ r.keys, x < nk := fun x hx => hrsep x hx nk hnkmem
    simp only [addHelper, if_pos hlt]
    rw [isBST_node]
    refine ⟨hlk, ?_, bl, ihr br hrsep⟩
    intro x hx
    rw [addHelper_rightmost_keys nv nl nr hrbound] at hx
    rcases List.mem_append.1 hx with hx | hx
    · exact hrk x hx
    · exact hsep k hkmem x hx

/-- `removeHelper` on an absent key always throws. -/
theorem removeHelper_not_mem {t : Tree K V} {key : K} (h : key ∉ t.keys) :
    t.removeHelper key = .error () := by
  induction t with
  | leaf => rfl
  | node k v l r ihl ihr =>
    simp only [keys_node, List.mem_append, List.mem_cons] at h
    push_neg at h
    obtain ⟨hl, hk, hr⟩ := h
    have hk' : k ≠ key := fun e => hk e.symm
    rcases lt_or_gt_of_ne hk' with hlt | hgt
    · simp [removeHelper, hlt, ihr hr]
    · simp [removeHelper, not_lt_of_gt hgt, hgt, ihl hl]

/-- Full functional specification of `removeHelper` on a present key: it
returns the stored value, keeps the BST invariant, shrinks the node count
by one, and removes exactly that key. -/
theorem removeHelper_spec {t : Tree K V} {key : K} {v : V}
    (hb : t.isBST = true) (h : t.atHelper key = .ok v) :
    ∃ t', t.removeHelper key = .ok (t', v)
      ∧ t'.isBST = true
      ∧ t'.count + 1 = t.count
      ∧ ∀ x, x ∈ t'.keys ↔ x ∈ t.keys ∧ x ≠ key := by
  induction t with
  | leaf => simp [atHelper] at h
  | node k v' l r ihl ihr =>
    rw [isBST_node] at hb
    obtain ⟨hlk, hrk, bl, br⟩ := hb
    by_cases h1 : k < key
    · simp only [atHelper, if_pos h1] at h
      obtain ⟨r', hrem, hbst, hcount, hmem⟩ := ihr br h
      refine ⟨node k v' l r', ?_, ?_, ?_, ?_⟩
      · simp [removeHelper, h1, hrem]
      · rw [isBST_node]
        exact ⟨hlk, fun x hx => hrk x (((hmem x).1 hx).1), bl, hbst⟩
      · simp only [count]
        omega
      · intro x
        simp only [keys_node, List.mem_append, List.mem_cons, hmem]
        constructor
        · rintro (hx | rfl | hx)
          · exact ⟨Or.inl hx, ne_of_lt (lt_trans (hlk x hx) h1)⟩
          · exact ⟨Or.inr (Or.inl rfl), ne_of_lt h1⟩
          · exact ⟨Or.inr (Or.inr hx.1), hx.2⟩
        · rintro ⟨hx | rfl | hx, hne⟩
          · exact Or.inl hx
          · exact Or.inr (Or.inl rfl)
          · exact Or.inr (Or.inr ⟨hx, hne⟩)
    · by_cases h2 : k > key
      · simp only [atHelper, if_neg h1, if_pos h2] at h
        obtain ⟨l', hrem, hbst, hcount, hmem⟩ := ihl bl h
        refine ⟨node k v' l' r, ?_, ?_, ?_, ?_⟩
        · simp [removeHelper, not_lt_of_gt h2, h2, hrem]
        · rw [isBST_node]
          exact ⟨fun x hx => hlk x (((hmem x).1 hx).1), hrk, hbst, br⟩
        · simp only [count]
          omega
        · intro x
          simp only [keys_node, List.mem_append, List.mem_cons, hmem]
          constructor
          · rintro (hx | rfl | hx)
            · exact ⟨Or.inl hx.1, hx.2⟩
            · exact ⟨Or.inr (Or.inl rfl), ne_of_gt h2⟩
            · exact ⟨Or.inr (Or.inr hx), ne_of_gt (lt_trans h2 (hrk x hx))⟩
          · rintro ⟨hx | rfl | hx, hne⟩
            · exact Or.inl ⟨hx, hne⟩
            · exact Or.inr (Or.inl rfl)
            · exact Or.inr (Or.inr hx)
      · have hkey : k = key := le_antisymm (not_lt.1 h2) (not_lt.1 h1)
        subst hkey
        simp only [atHelper, lt_irrefl, if_neg (lt_irrefl k), gt_iff_lt,
          if_false, Except.ok.injEq] at h
        subst h
        match r, hrk, br with
        | leaf, hrk, br =>
          refine ⟨l, ?_, bl, ?_, ?_⟩
          · simp [removeHelper]
          · simp only [count]
            omega
          · intro x
            simp only [keys_node, keys_leaf, List.mem_append, List.mem_cons,
              List.not_mem_nil, or_false]
            constructor
            · intro hx
              exact ⟨Or.inl hx, ne_of_lt (hlk x hx)⟩
            · rintro ⟨hx | rfl, hne⟩
              · exact hx
              · exact absurd rfl hne
        | node rk rv rl rr, hrk, br =>
          have hsep : ∀ x ∈ l.keys,
              ∀ y ∈ (node rk rv rl rr).keys, x < y := by
            intro x hx y hy
            exact lt_trans (hlk x hx) (hrk y hy)
          have hrkmem : rk ∈ (node rk rv rl rr).keys := by simp [keys_node]
          have hbound : ∀ x ∈ l.keys, x < rk := fun x hx =>
            hsep x hx rk hrkmem
          refine ⟨(addHelper l rk rv rl rr).1, ?_, ?_, ?_, ?_⟩
          · simp [removeHelper]
          · exact addHelper_rightmost_isBST bl br hsep
          · rw [count_eq_length_inorder,
              addHelper_rightmost_inorder rv rl rr hbound]
            simp only [count_eq_length_inorder, List.length_append]
            simp [count, inorder, count_eq_length_inorder]
            omega
          · intro x
            rw [addHelper_rightmost_keys rv rl rr hbound]
            simp only [keys_node, List.mem_append, List.mem_cons]
            constructor
            · rintro (hx | hx)
              · exact ⟨Or.inl hx, ne_of_lt (hlk x hx)⟩
              · refine ⟨Or.inr (Or.inr ?_), ne_of_gt (hrk x ?_)⟩
                · simpa [keys_node] using hx
                · simpa [keys_node] using hx
            · rintro ⟨hx | rfl | hx, hne⟩
              · exact Or.inl hx
              · exact absurd rfl hne
              · exact Or.inr (by simpa [keys_node] using hx)

end Tree

/-! ## Lemmas about the map-level operations -/

namespace TreeMap

variable {K V : Type} [LinearOrder K]

/-- `add` preserves the representation invariant. -/
theorem add_inv {m : TreeMap K V} (k : K) (v : V) (h : m.Inv) :
    (m.add k v).1.Inv := by
  by_cases hk : k ∈ m.root.keys
  · have hcol := Tree.addHelper_collision v Tree.leaf Tree.leaf h.1 hk
    simp only [add, hcol, Bool.false_eq_true, if_false]
    exact h
  · have hsucc := Tree.addHelper_fresh_success v Tree.leaf Tree.leaf hk
    have hcnt := Tree.addHelper_fresh_count v Tree.leaf Tree.leaf hk
    have hbst := Tree.addHelper_singleton_isBST v h.1 hk
    simp only [add, hsucc, if_true]
    refine ⟨hbst, ?_⟩
    simp only [Tree.count] at hcnt
    rw [hcnt, h.2]

/-- Key membership after an `add` (whether or not it succeeds). -/
theorem add_mem_keys {m : TreeMap K V} (k : K) (v : V) (h : m.Inv) (x : K) :
    x ∈ (m.add k v).1.root.keys ↔ x = k ∨ x ∈ m.root.keys := by
  by_cases hk : k ∈ m.root.keys
  · have hcol := Tree.addHelper_collision v Tree.leaf Tree.leaf h.1 hk
    simp only [add, hcol, Bool.false_eq_true, if_false]
    constructor
    · exact fun hx => Or.inr hx
    · rintro (rfl | hx)
      · exact hk
      · exact hx
  · have hsucc := Tree.addHelper_fresh_success v Tree.leaf Tree.leaf hk
    have hmem := Tree.addHelper_fresh_mem_keys v Tree.leaf Tree.leaf hk x
    simp only [add, hsucc, if_true]
    rw [hmem]
    simp [Tree.keys_node, Tree.keys_leaf]

/-- `insertAll` preserves the representation invariant. -/
theorem insertAll_inv {m : TreeMap K V} (l : List (K × V)) (h : m.Inv) :
    (insertAll m l).Inv := by
  induction l generalizing m with
  | nil => exact h
  | cons p rest ih => exact ih (add_inv p.1 p.2 h)

/-- Key membership after inserting a whole list of pairs. -/
theorem insertAll_mem_keys {m : TreeMap K V} (l : List (K × V)) (h : m.Inv)
    (x : K) :
    x ∈ (insertAll m l).root.keys
      ↔ x ∈ l.map Prod.fst ∨ x ∈ m.root.keys := by
  induction l generalizing m with
  | nil => simp [insertAll]
  | cons p rest ih =>
    simp only [insertAll]
    rw [ih (add_inv p.1 p.2 h), add_mem_keys p.1 p.2 h x]
    simp only [List.map_cons, List.mem_cons]
    tauto

theorem empty_inv : (empty : TreeMap K V).Inv := ⟨rfl, rfl⟩

end TreeMap

/-! ## Lemmas about the iterator -/

namespace Iter

variable {K V : Type}

theorem drain_nil : drain ([] : List (TNode K V)) = [] := by
  simp [drain]

theorem drain_cons (n : TNode K V) (rest : List (TNode K V)) :
    drain (n :: rest) = (n.key, n.val) :: drain (pushLefts n.right rest) := by
  rw [drain]

/-- Draining the stack produced by pushing a subtree's left spine yields
that subtree's in-order traversal followed by whatever the rest of the
stack yields. -/
theorem drain_pushLefts (t : Tree K V) (st : List (TNode K V)) :
    drain (pushLefts t st) = t.inorder ++ drain st := by
  induction t generalizing st with
  | leaf => simp [pushLefts, Tree.inorder]
  | node k v l r ihl ihr =>
    show drain (pushLefts l (⟨k, v, l, r⟩ :: st)) = _
    rw [ihl, drain_cons]
    simp only at *
    rw [ihr]
    simp [Tree.inorder]

/-- One step of `drain` is exactly one `operator*` followed by one
`operator++`: draining models "dereference then advance, until equal to
`end()`". -/
theorem drain_step (n : TNode K V) (rest : List (TNode K V)) :
    derefIter (n :: rest) = Except.ok (n.key, n.val)
    ∧ incIter (n :: rest) = Except.ok (pushLefts n.right rest)
    ∧ drain (n :: rest) = (n.key, n.val) :: drain (pushLefts n.right rest) :=
  ⟨rfl, rfl, drain_cons n rest⟩

/-- A full drain of `begin()` is exactly the in-order traversal. -/
theorem drain_iterBegin (m : TreeMap K V) :
    drain (iterBegin m) = m.root.inorder := by
  rw [iterBegin, drain_pushLefts, drain_nil, List.append_nil]

end Iter

/-! ## The claims -/

/-- C1: for a key `k` not already present in a well-formed map, `add(k,v)`
returns `true`, a subsequent `at(k)` returns `v`, and `size()` increases by
exactly one.  (Allocation is modelled as always succeeding; the
`std::bad_alloc` branch of `add` is outside the model.) -/
theorem add_fresh_inserts {K V : Type} [LinearOrder K] (m : TreeMap K V)
    (k : K) (v : V) (hInv : m.Inv) (h : k ∉ m.root.keys) :
    (m.add k v).2 = true
    ∧ (m.add k v).1.at' k = Except.ok v
    ∧ (m.add k v).1.size = m.size + 1 := by
  have hsucc := Tree.addHelper_fresh_success v Tree.leaf Tree.leaf h
  have hat := Tree.atHelper_addHelper_self v Tree.leaf Tree.leaf h
  refine ⟨?_, ?_, ?_⟩ <;> simp [TreeMap.add, TreeMap.at', hsucc, hat]

theorem add_fresh_inserts_witness :
    (exMap.Inv ∧ (3 : Int) ∉ exMap.root.keys)
    ∧ ((exMap.add 3 30).2 = true
        ∧ (exMap.add 3 30).1.at' 3 = Except.ok 30
        ∧ (exMap.add 3 30).1.size = exMap.size + 1) :=
  ⟨⟨by decide, by decide⟩, add_fresh_inserts exMap 3 30 (by decide) (by decide)⟩

/-- C2: for a key `k` already present with stored value `v1`,
`add(k, v2)` returns `false`, the `TreeMap` object is left entirely
unchanged (in particular `at(k)` still returns `v1`), and `size()` is
unchanged. -/
theorem add_duplicate_rejected {K V : Type} [LinearOrder K] (m : TreeMap K V)
    (k : K) (v1 v2 : V) (hInv : m.Inv) (h : m.at' k = Except.ok v1) :
    (m.add k v2).2 = false
    ∧ (m.add k v2).1 = m
    ∧ (m.add k v2).1.at' k = Except.ok v1
    ∧ (m.add k v2).1.size = m.size := by
  have h' : m.root.atHelper k = Except.ok v1 := h
  have hmem := Tree.mem_of_atHelper_ok h'
  have hcol := Tree.addHelper_collision v2 Tree.leaf Tree.leaf hInv.1 hmem
  have heq : (m.add k v2).1 = m := by
    simp only [TreeMap.add, hcol, Bool.false_eq_true, if_false]
  refine ⟨?_, heq, ?_, ?_⟩
  · simp [TreeMap.add, hcol]
  · rw [heq]; exact h
  · rw [heq]

theorem add_duplicate_rejected_witness :
    (exMap.Inv ∧ exMap.at' 1 = Except.ok 10)
    ∧ ((exMap.add 1 99).2 = false
        ∧ (exMap.add 1 99).1 = exMap
        ∧ (exMap.add 1 99).1.at' 1 = Except.ok 10
        ∧ (exMap.add 1 99).1.size = exMap.size) :=
  ⟨⟨by decide, by rfl⟩,
    add_duplicate_rejected exMap 1 10 99 (by decide) (by rfl)⟩

/-- C3: `remove` on a present key returns the stored value, decreases
`size()` by exactly one, and afterwards `at` on that key throws
`KeyNotFound`. -/
theorem remove_present_spec {K V : Type} [LinearOrder K] (m : TreeMap K V)
    (k : K) (v : V) (hInv : m.Inv) (h : m.at' k = Except.ok v) :
    ∃ m', m.remove k = Except.ok (m', v)
      ∧ m'.size + 1 = m.size
      ∧ m'.at' k = Except.error () := by
  have h' : m.root.atHelper k = Except.ok v := h
  obtain ⟨t', hrem, hbst, hcount, hmem⟩ := Tree.removeHelper_spec hInv.1 h'
  have hsz := hInv.2
  refine ⟨⟨m.size - 1, t'⟩, ?_, ?_, ?_⟩
  · simp [TreeMap.remove, hrem]
  · show m.size - 1 + 1 = m.size
    omega
  · exact Tree.atHelper_not_mem (fun hx => ((hmem k).1 hx).2 rfl)

theorem remove_present_witness :
    (exMap.Inv ∧ exMap.at' 2 = Except.ok 20)
    ∧ ∃ m', exMap.remove 2 = Except.ok (m', 20)
        ∧ m'.size + 1 = exMap.size
        ∧ m'.at' 2 = Except.error () :=
  ⟨⟨by decide, by rfl⟩,
    remove_present_spec exMap 2 20 (by decide) (by rfl)⟩

/-- C4: when `removeHelper` matches a node, the subtree that replaces the
removed node's position is the left subtree when the node has no right
child, and otherwise the result of running the same insertion algorithm
(`addHelper`) with the right-subtree root as the inserted node into the
left subtree; the replacement satisfies the BST ordering invariant and
holds exactly the previous keys minus the removed one. -/
theorem removeHelper_merge_shape {K V : Type} [LinearOrder K] (k : K) (v : V)
    (l r : Tree K V) (hb : (Tree.node k v l r).isBST = true) :
    ∃ merged,
      (r = Tree.leaf → merged = l)
      ∧ (∀ rk rv rl rr, r = Tree.node rk rv rl rr →
          merged = (Tree.addHelper l rk rv rl rr).1)
      ∧ (Tree.node k v l r).removeHelper k = Except.ok (merged, v)
      ∧ merged.isBST = true
      ∧ ∀ x, x ∈ merged.keys ↔ x ∈ (Tree.node k v l r).keys ∧ x ≠ k := by
  have hat : (Tree.node k v l r).atHelper k = Except.ok v := by
    simp [Tree.atHelper]
  obtain ⟨t', hrem, hbst, hcount, hmem⟩ := Tree.removeHelper_spec hb hat
  refine ⟨t', ?_, ?_, hrem, hbst, hmem⟩
  · intro hr
    subst hr
    have hsh : (Tree.node k v l Tree.leaf).removeHelper k
        = Except.ok (l, v) := by
      simp [Tree.removeHelper]
    rw [hsh] at hrem
    exact (congrArg Prod.fst (Except.ok.inj hrem)).symm
  · intro rk rv rl rr hr
    subst hr
    have hsh : (Tree.node k v l (Tree.node rk rv rl rr)).removeHelper k
        = Except.ok ((Tree.addHelper l rk rv rl rr).1, v) := by
      simp [Tree.removeHelper]
    rw [hsh] at hrem
    exact (congrArg Prod.fst (Except.ok.inj hrem)).symm

theorem removeHelper_merge_witness :
    (Tree.node (2 : Int) (20 : Int)
        (Tree.node 1 10 Tree.leaf Tree.leaf)
        (Tree.node 5 50 Tree.leaf Tree.leaf)).isBST = true
    ∧ ∃ merged,
        (Tree.node (5 : Int) (50 : Int) Tree.leaf Tree.leaf = Tree.leaf →
          merged = Tree.node 1 10 Tree.leaf Tree.leaf)
        ∧ (∀ rk rv rl rr,
            Tree.node (5 : Int) (50 : Int) Tree.leaf Tree.leaf
              = Tree.node rk rv rl rr →
            merged
              = (Tree.addHelper (Tree.node 1 10 Tree.leaf Tree.leaf)
                  rk rv rl rr).1)
        ∧ (Tree.node 2 20 (Tree.node 1 10 Tree.leaf Tree.leaf)
            (Tree.node 5 50 Tree.leaf Tree.leaf)).removeHelper 2
            = Except.ok (merged, 20)
        ∧ merged.isBST = true
        ∧ ∀ x, x ∈ merged.keys ↔
            x ∈ (Tree.node (2 : Int) (20 : Int)
              (Tree.node 1 10 Tree.leaf Tree.leaf)
              (Tree.node 5 50 Tree.leaf Tree.leaf)).keys ∧ x ≠ 2 :=
  ⟨by decide, removeHelper_merge_shape 2 20 _ _ (by decide)⟩

/-- C5: `at` and `remove` on an absent key (including on the empty map)
both throw `KeyNotFound`.  The embedding is pure, so an `.error` result
carries no new state at all — mirroring the C++ code, where the exception
propagates before any assignment to a child pointer, to `root_`, or to
`size_` can execute, so the tree and `size()` are left exactly as they
were. -/
theorem absent_key_ops_fail {K V : Type} [LinearOrder K] (m : TreeMap K V)
    (k : K) (h : k ∉ m.root.keys) :
    m.at' k = Except.error () ∧ m.remove k = Except.error () := by
  have h2 : m.root.removeHelper k = Except.error () :=
    Tree.removeHelper_not_mem h
  refine ⟨Tree.atHelper_not_mem h, ?_⟩
  simp [TreeMap.remove, h2]

theorem absent_key_ops_witness :
    ((3 : Int) ∉ exMap.root.keys)
    ∧ (exMap.at' 3 = Except.error () ∧ exMap.remove 3 = Except.error ()) :=
  ⟨by decide, absent_key_ops_fail exMap 3 (by decide)⟩

/-- C6: both mutating operations preserve the representation invariant
(`size_` equals the number of reachable nodes and the tree is a BST), and
under that invariant all keys in the structure are pairwise distinct. -/
theorem ops_preserve_invariant {K V : Type} [LinearOrder K] (m : TreeMap K V)
    (k : K) (v : V) (hInv : m.Inv) :
    ((m.add k v).1.Inv ∧ (m.add k v).1.root.keys.Nodup)
    ∧ ∀ m' rv, m.remove k = Except.ok (m', rv) →
        m'.Inv ∧ m'.root.keys.Nodup := by
  constructor
  · have hi := TreeMap.add_inv k v hInv
    exact ⟨hi, Tree.nodup_keys_of_isBST hi.1⟩
  · intro m' rv hr
    have hkmem : k ∈ m.root.keys := by
      by_contra hk
      rw [TreeMap.remove, Tree.removeHelper_not_mem hk] at hr
      exact absurd hr (by simp)
    obtain ⟨v0, hat⟩ := Tree.atHelper_ok_of_mem hInv.1 hkmem
    obtain ⟨t', hrem, hbst, hcount, hmem⟩ := Tree.removeHelper_spec hInv.1 hat
    rw [TreeMap.remove, hrem] at hr
    simp only [Except.ok.injEq, Prod.mk.injEq] at hr
    obtain ⟨hm', hrv⟩ := hr
    subst hm'
    have hsz := hInv.2
    refine ⟨⟨hbst, ?_⟩, Tree.nodup_keys_of_isBST hbst⟩
    show m.size - 1 = t'.count
    omega

theorem ops_preserve_invariant_witness :
    exMap.Inv
    ∧ (((exMap.add 4 44).1.Inv ∧ (exMap.add 4 44).1.root.keys.Nodup)
        ∧ ∀ m' rv, exMap.remove 4 = Except.ok (m', rv) →
            m'.Inv ∧ m'.root.keys.Nodup) :=
  ⟨by decide, ops_preserve_invariant exMap 4 44 (by decide)⟩

/-- C7: a full iteration from `begin()` to `end()` yields exactly the
in-order traversal of the tree, whose key sequence is strictly ascending
(hence each present key appears exactly once); and the round trip —
`add`-ing any list of pairs into an empty map and then iterating — yields
a strictly ascending key sequence that is a permutation of the inserted
keys whenever those are distinct, i.e. the sorted key sequence. -/
theorem iteration_inorder_sorted {K V : Type} [LinearOrder K]
    (m : TreeMap K V) (l : List (K × V)) (hInv : m.Inv) :
    Iter.drain (Iter.iterBegin m) = m.root.inorder
    ∧ ((Iter.drain (Iter.iterBegin m)).map Prod.fst).Pairwise (· < ·)
    ∧ ((Iter.drain (Iter.iterBegin m)).map Prod.fst).Nodup
    ∧ ((Iter.drain (Iter.iterBegin (TreeMap.insertAll TreeMap.empty l))).map
        Prod.fst).Pairwise (· < ·)
    ∧ ((l.map Prod.fst).Nodup →
        List.Perm
          ((Iter.drain (Iter.iterBegin (TreeMap.insertAll TreeMap.empty l))).map
            Prod.fst)
          (l.map Prod.fst)) := by
  have hIl : (TreeMap.insertAll (TreeMap.empty : TreeMap K V) l).Inv :=
    TreeMap.insertAll_inv l TreeMap.empty_inv
  have hkeys : ∀ (mm : TreeMap K V),
      (Iter.drain (Iter.iterBegin mm)).map Prod.fst = mm.root.keys := by
    intro mm
    rw [Iter.drain_iterBegin]
    rfl
  refine ⟨Iter.drain_iterBegin m, ?_, ?_, ?_, ?_⟩
  · rw [hkeys]
    exact Tree.pairwise_keys_of_isBST hInv.1
  · rw [hkeys]
    exact Tree.nodup_keys_of_isBST hInv.1
  · rw [hkeys]
    exact Tree.pairwise_keys_of_isBST hIl.1
  · intro hnd
    rw [hkeys]
    refine (List.perm_ext_iff_of_nodup (Tree.nodup_keys_of_isBST hIl.1) hnd).2
      (fun x => ?_)
    rw [TreeMap.insertAll_mem_keys l TreeMap.empty_inv x]
    simp [TreeMap.empty, Tree.keys_leaf]

theorem iteration_inorder_witness :
    exMap.Inv
    ∧ (Iter.drain (Iter.iterBegin exMap) = exMap.root.inorder
      ∧ ((Iter.drain (Iter.iterBegin exMap)).map Prod.fst).Pairwise (· < ·)
      ∧ ((Iter.drain (Iter.iterBegin exMap)).map Prod.fst).Nodup
      ∧ ((Iter.drain (Iter.iterBegin
            (TreeMap.insertAll TreeMap.empty
              [((3 : Int), (1 : Int)), (1, 2), (2, 3)]))).map
          Prod.fst).Pairwise (· < ·)
      ∧ ((([((3 : Int), (1 : Int)), (1, 2), (2, 3)].map Prod.fst)).Nodup →
          List.Perm
            ((Iter.drain (Iter.iterBegin
              (TreeMap.insertAll TreeMap.empty
                [((3 : Int), (1 : Int)), (1, 2), (2, 3)]))).map Prod.fst)
            ([((3 : Int), (1 : Int)), (1, 2), (2, 3)].map Prod.fst))) :=
  ⟨by decide, iteration_inorder_sorted exMap _ (by decide)⟩

/-- C8: iterator dereference (`operator*`) and advance (`operator++`)
throw `IteratorExhausted` exactly when the pending stack is empty before
the operation, and never throw on a non-exhausted iterator.  The embedding
is pure, so a failed call returns only `.error ()` and no changed stack —
matching the C++ code, which throws before popping anything. -/
theorem iterator_fail_iff_exhausted {K V : Type} (st : List (TNode K V)) :
    (Iter.incIter st = Except.error () ↔ st = [])
    ∧ (Iter.derefIter st = Except.error () ↔ st = [])
    ∧ (st ≠ [] → (∃ st', Iter.incIter st = Except.ok st')
        ∧ ∃ p, Iter.derefIter st = Except.ok p) := by
  cases st with
  | nil => simp [Iter.incIter, Iter.derefIter]
  | cons n rest => simp [Iter.incIter, Iter.derefIter]

theorem iterator_fail_witness :
    (([⟨1, 2, Tree.leaf, Tree.leaf⟩] : List (TNode Int Int)) ≠ [])
    ∧ ((∃ st', Iter.incIter
          ([⟨1, 2, Tree.leaf, Tree.leaf⟩] : List (TNode Int Int))
          = Except.ok st')
        ∧ ∃ p, Iter.derefIter
            ([⟨1, 2, Tree.leaf, Tree.leaf⟩] : List (TNode Int Int))
            = Except.ok p) :=
  ⟨by decide,
    (iterator_fail_iff_exhausted [⟨1, 2, Tree.leaf, Tree.leaf⟩]).2.2
      (by decide)⟩

/-- C9: two iterators compare equal exactly when their pending stacks are
element-for-element identical; hence any two past-the-end (empty-stack)
iterators are equal regardless of origin, and two iterators advanced the
same number of steps from `begin()` of the same unmodified map are
equal. -/
theorem iterator_equality_spec {K V : Type} [DecidableEq K] [DecidableEq V]
    (s1 s2 : List (TNode K V)) (m : TreeMap K V) (n : Nat) :
    (Iter.iterEq s1 s2 = true ↔ s1 = s2)
    ∧ (s1 = [] → s2 = [] → Iter.iterEq s1 s2 = true)
    ∧ ∀ a b, Iter.advanceN n (Iter.iterBegin m) = Except.ok a →
        Iter.advanceN n (Iter.iterBegin m) = Except.ok b →
        Iter.iterEq a b = true := by
  refine ⟨by simp [Iter.iterEq], ?_, ?_⟩
  · rintro rfl rfl
    simp [Iter.iterEq]
  · intro a b ha hb
    rw [ha] at hb
    have hab := Except.ok.inj hb
    simp [Iter.iterEq, hab]

theorem iterator_equality_witness :
    Iter.iterEq ([] : List (TNode Int Int)) [] = true :=
  (iterator_equality_spec ([] : List (TNode Int Int)) [] exMap 1).2.1 rfl rfl

/-- C10: on an empty map, `begin()` is already past-the-end: it equals
`end()`, and both dereferencing and advancing it throw
`IteratorExhausted`. -/
theorem empty_begin_is_end {K V : Type} [DecidableEq K] [DecidableEq V] :
    Iter.iterBegin (TreeMap.empty : TreeMap K V) = Iter.iterEnd
    ∧ Iter.iterEq (Iter.iterBegin (TreeMap.empty : TreeMap K V))
        Iter.iterEnd = true
    ∧ Iter.incIter (Iter.iterBegin (TreeMap.empty : TreeMap K V))
        = Except.error ()
    ∧ Iter.derefIter (Iter.iterBegin (TreeMap.empty : TreeMap K V))
        = Except.error () := by
  refine ⟨rfl, ?_, rfl, rfl⟩
  simp [Iter.iterEq, Iter.iterBegin, Iter.iterEnd, TreeMap.empty,
    Iter.pushLefts]

end BinaryTreeRepo
